import Mathlib

/-!
Shallow embedding of `ocpsvg/ocp.py`: wire closure (`closed_wire`), face
resolution from a wire soup (`faces_from_wire_soup`), Bezier/B-spline
conversion (`curve_to_beziers`, `bspline_to_beziers`) and the point
coercions (`as_triple`, `as_Pnt`, `as_Vec`, `as_Dir`).

OCCT kernel primitives (point containment, planar-surface search, the
`ShapeFix_Wire` repair pass, `GeomConvert_ApproxCurve`, the exact splitting
of a B-spline into Bezier arcs) are external collaborators: they are
modelled as oracle parameters or oracle data carried by the structures,
and the kernel's documented guarantees enter the theorems as hypotheses.
Floating-point coordinates are modelled by exact rationals.
-/

/-- A 3-d point (`gp_Pnt`). -/
structure Pnt where
  x : Rat
  y : Rat
  z : Rat
  deriving DecidableEq, Repr

/-- A 3-d vector (`gp_Vec`). -/
structure Vec where
  x : Rat
  y : Rat
  z : Rat
  deriving DecidableEq, Repr

/-- A 3-d direction (`gp_Dir`); normalisation is the kernel's concern and
plays no role in the embedded code paths. -/
structure Dir where
  x : Rat
  y : Rat
  z : Rat
  deriving DecidableEq, Repr

/-- `as_triple` on the tuple branch of the Python union `VecLike`
(the `gp_*` isinstance branch just reads back `X(), Y(), Z()` and cannot
fail, so the interesting behaviour is the tuple branch modelled here):
a 3-tuple is returned as is, a 2-tuple is padded with `z = 0.0`, and any
other length raises `ValueError`. -/
def as_triple (p : List Rat) : Except String (Rat × Rat × Rat) :=
  match p with
  | [x, y, z] => Except.ok (x, y, z)
  | [x, y] => Except.ok (x, y, 0)
  | _ => Except.error "cannot make point"

/-- `as_Pnt` on the tuple branch: `gp_Pnt(*as_triple(p))`. -/
def as_Pnt (p : List Rat) : Except String Pnt :=
  (as_triple p).map (fun t => ⟨t.1, t.2.1, t.2.2⟩)

/-- `as_Vec` on the tuple branch: `gp_Vec(*as_triple(v))`. -/
def as_Vec (p : List Rat) : Except String Vec :=
  (as_triple p).map (fun t => ⟨t.1, t.2.1, t.2.2⟩)

/-- `as_Dir` on the tuple branch: `gp_Dir(*as_triple(d))`. -/
def as_Dir (p : List Rat) : Except String Dir :=
  (as_triple p).map (fun t => ⟨t.1, t.2.1, t.2.2⟩)

/-- The module-level coincidence tolerance `_TOLERANCE = 1e-8`. -/
def _TOLERANCE : Rat := 1 / 100000000

/-- `gp_Pnt.IsEqual(other, tol)`: distance at most `tol`, stated on squared
distances to stay inside the rationals. -/
def Pnt.isEqual (p q : Pnt) (tol : Rat) : Bool :=
  decide ((p.x - q.x) ^ 2 + (p.y - q.y) ^ 2 + (p.z - q.z) ^ 2 ≤ tol ^ 2)

/-- An edge as `closed_wire` observes it through `BRepAdaptor_Curve`:
`p0` is `Value(FirstParameter())`, `p1` is `Value(LastParameter())`. -/
structure Edge where
  p0 : Pnt
  p1 : Pnt
  deriving DecidableEq, Repr

/-- A wire: its edges in order (what `topoDS_iterator` yields) together
with the kernel's closedness flag (`BRep_Tool.IsClosed_s`). -/
structure Wire where
  edges : List Edge
  closedFlag : Bool
  deriving DecidableEq, Repr

/-- `is_wire_closed`: delegates to `BRep_Tool.IsClosed_s`. -/
def is_wire_closed (w : Wire) : Bool :=
  w.closedFlag

/-- Whether the wire's first edge's start point and its last edge's end
point coincide within `_TOLERANCE` (the geometric notion of a closable
loop; used to state the `ShapeFix_Wire` kernel guarantee). -/
def wireEndsMeet (w : Wire) : Bool :=
  match w.edges with
  | [] => false
  | e0 :: es => e0.p0.isEqual ((e0 :: es).getLast (List.cons_ne_nil _ _)).p1 _TOLERANCE

/-- `closed_wire`.  `fix` is the oracle for the final
`ShapeFix_Wire(...).FixClosed(); FixConnected()` repair pass.  The code:
return the wire untouched when `is_wire_closed` holds or when it has
fewer than 2 edges; otherwise compare the first edge's start with the
last edge's end, append a closing segment (`segment_curve(end, start)`
made into an edge) when they differ by more than `_TOLERANCE`, and run
the repair pass. -/
def closed_wire (fix : Wire → Wire) (w : Wire) : Wire :=
  if is_wire_closed w then w
  else
    match w.edges with
    | [] => w
    | [_] => w
    | e0 :: e1 :: es =>
      let lastEdge := (e1 :: es).getLast (List.cons_ne_nil _ _)
      let start := e0.p0
      let stop := lastEdge.p1
      let w2 := if start.isEqual stop _TOLERANCE then w
                else ⟨w.edges ++ [⟨stop, start⟩], w.closedFlag⟩
      fix w2

/-- C10: `as_triple` lifts every 2-tuple `(x, y)` to `(x, y, 0.0)`, and on
a tuple whose length is neither 2 nor 3 it — and hence `as_Pnt`, `as_Vec`
and `as_Dir` — raises `ValueError` instead of returning a value. -/
theorem c10_as_triple_lift_and_errors :
    (∀ x y : Rat, as_triple [x, y] = Except.ok (x, y, 0)) ∧
    (∀ p : List Rat, p.length ≠ 2 → p.length ≠ 3 →
      as_triple p = Except.error "cannot make point" ∧
      as_Pnt p = Except.error "cannot make point" ∧
      as_Vec p = Except.error "cannot make point" ∧
      as_Dir p = Except.error "cannot make point") := by
  constructor
  · intro x y
    rfl
  · intro p h2 h3
    have htriple : as_triple p = Except.error "cannot make point" := by
      match p with
      | [] => rfl
      | [_] => rfl
      | [_, _] => exact absurd rfl h2
      | [_, _, _] => exact absurd rfl h3
      | _ :: _ :: _ :: _ :: _ => rfl
    refine ⟨htriple, ?_, ?_, ?_⟩ <;> simp [as_Pnt, as_Vec, as_Dir, htriple, Except.map]

/-- C10 witness: the concrete 2-tuple `(5, 7)` is lifted to `(5, 7, 0)`,
and the concrete 4-tuple `(1, 2, 3, 4)` makes all four coercions fail. -/
theorem c10_witness :
    as_triple [(5 : Rat), 7] = Except.ok (5, 7, 0) ∧
    as_Pnt [(1 : Rat), 2, 3, 4] = Except.error "cannot make point" := by
  refine ⟨c10_as_triple_lift_and_errors.1 5 7, ?_⟩
  exact (c10_as_triple_lift_and_errors.2 [1, 2, 3, 4] (by decide) (by decide)).2.1

theorem closed_wire_of_closed (fix : Wire → Wire) (w : Wire)
    (h : is_wire_closed w = true) : closed_wire fix w = w := by
  simp [closed_wire, h]

theorem closed_wire_of_short (fix : Wire → Wire) (w : Wire)
    (h : w.edges.length < 2) : closed_wire fix w = w := by
  unfold closed_wire
  split
  · rfl
  · match hw : w.edges with
    | [] => rfl
    | [_] => rfl
    | _ :: _ :: _ =>
      rw [hw] at h
      simp [List.length_cons] at h
      omega

/-- C4: `closed_wire` returns its input wire itself — no closing segment,
no repair pass — whenever the wire is already closed, and whenever it has
fewer than 2 edges. -/
theorem c4_closed_wire_early_returns (fix : Wire → Wire) (w : Wire) :
    (is_wire_closed w = true → closed_wire fix w = w) ∧
    (w.edges.length < 2 → closed_wire fix w = w) :=
  ⟨closed_wire_of_closed fix w, closed_wire_of_short fix w⟩

/-- C4 witness: a concrete already-closed wire and a concrete one-edge
open wire are both returned untouched (with the identity as the repair
oracle, which is never consulted). -/
theorem c4_witness :
    closed_wire id ⟨[⟨⟨0, 0, 0⟩, ⟨1, 0, 0⟩⟩, ⟨⟨1, 0, 0⟩, ⟨0, 0, 0⟩⟩], true⟩ =
      ⟨[⟨⟨0, 0, 0⟩, ⟨1, 0, 0⟩⟩, ⟨⟨1, 0, 0⟩, ⟨0, 0, 0⟩⟩], true⟩ ∧
    closed_wire id ⟨[⟨⟨0, 0, 0⟩, ⟨1, 0, 0⟩⟩], false⟩ = ⟨[⟨⟨0, 0, 0⟩, ⟨1, 0, 0⟩⟩], false⟩ := by
  constructor
  · exact (c4_closed_wire_early_returns id _).1 rfl
  · exact (c4_closed_wire_early_returns id _).2 (by decide)

theorem pnt_isEqual_self (p : Pnt) (tol : Rat) : p.isEqual p tol = true := by
  simp [Pnt.isEqual]
  positivity

theorem closed_wire_cons2 (fix : Wire → Wire) (e0 e1 : Edge) (es : List Edge) :
    closed_wire fix ⟨e0 :: e1 :: es, false⟩ =
      fix (if e0.p0.isEqual ((e1 :: es).getLast (List.cons_ne_nil _ _)).p1 _TOLERANCE
           then ⟨e0 :: e1 :: es, false⟩
           else ⟨(e0 :: e1 :: es) ++
                   [⟨((e1 :: es).getLast (List.cons_ne_nil _ _)).p1, e0.p0⟩], false⟩) :=
  rfl

theorem wireEndsMeet_cons (e0 : Edge) (es : List Edge) (h : es ≠ []) (flag : Bool) :
    wireEndsMeet ⟨e0 :: es, flag⟩ = e0.p0.isEqual (es.getLast h).p1 _TOLERANCE := by
  simp [wireEndsMeet, List.getLast_cons h]

/-- C8: applying `closed_wire` to its own result changes nothing further,
for every wire with at least 2 edges.  The hypothesis `hfix` is the
kernel guarantee for the `ShapeFix_Wire ... FixClosed` repair pass: on a
wire whose first start point and last end point already coincide within
`_TOLERANCE` (which is the case for everything `closed_wire` hands it),
the repaired wire is flagged closed.  The second application then takes
the early return, so the result is even literally unchanged, stronger
than the claimed equality within tolerance. -/
theorem c8_closed_wire_idempotent (fix : Wire → Wire)
    (hfix : ∀ v, wireEndsMeet v = true → is_wire_closed (fix v) = true)
    (w : Wire) (hlen : 2 ≤ w.edges.length) :
    closed_wire fix (closed_wire fix w) = closed_wire fix w := by
  by_cases hcl : is_wire_closed w = true
  · rw [closed_wire_of_closed fix w hcl, closed_wire_of_closed fix w hcl]
  · obtain ⟨edges, flag⟩ := w
    have hflag : flag = false := by
      simpa [is_wire_closed] using hcl
    subst hflag
    match edges, hlen with
    | e0 :: e1 :: es, _ =>
      rw [closed_wire_cons2]
      set lastp := ((e1 :: es).getLast (List.cons_ne_nil _ _)).p1 with hlastp
      by_cases heq : e0.p0.isEqual lastp _TOLERANCE = true
      · have hmeet : wireEndsMeet ⟨e0 :: e1 :: es, false⟩ = true := by
          rw [wireEndsMeet_cons e0 (e1 :: es) (List.cons_ne_nil _ _)]
          exact heq
        rw [if_pos heq]
        exact closed_wire_of_closed fix _ (hfix _ hmeet)
      · have hmeet : wireEndsMeet
            ⟨(e0 :: e1 :: es) ++ [⟨lastp, e0.p0⟩], false⟩ = true := by
          have hne : (e1 :: es) ++ [(⟨lastp, e0.p0⟩ : Edge)] ≠ [] := by simp
          rw [show (e0 :: e1 :: es) ++ [(⟨lastp, e0.p0⟩ : Edge)] =
                e0 :: ((e1 :: es) ++ [⟨lastp, e0.p0⟩]) from rfl,
              wireEndsMeet_cons e0 _ hne]
          rw [List.getLast_append]
          exact pnt_isEqual_self e0.p0 _TOLERANCE
        rw [if_neg heq]
        exact closed_wire_of_closed fix _ (hfix _ hmeet)

/-- C8 witness: a concrete open two-edge wire, with a repair oracle that
marks its input closed, reaches a fixed point after one application. -/
theorem c8_witness :
    closed_wire (fun v => ⟨v.edges, true⟩)
        (closed_wire (fun v => ⟨v.edges, true⟩) ⟨[⟨⟨0, 0, 0⟩, ⟨1, 0, 0⟩⟩, ⟨⟨1, 0, 0⟩, ⟨1, 1, 0⟩⟩], false⟩) =
      closed_wire (fun v => ⟨v.edges, true⟩) ⟨[⟨⟨0, 0, 0⟩, ⟨1, 0, 0⟩⟩, ⟨⟨1, 0, 0⟩, ⟨1, 1, 0⟩⟩], false⟩ :=
  c8_closed_wire_idempotent (fun v => ⟨v.edges, true⟩) (fun _ _ => rfl) _ (by decide)

/-! ## faces_from_wire_soup

Wires are identified with their indices `0 .. n-1` in the input list
(`faces` in the source is built index-aligned with `wires`).  The kernel
containment test `BRepFeat.IsInside_s(face_i, face_j)` on the candidate
faces is the oracle `ins : Nat → Nat → Bool` (`ins i j` = candidate face
`i` lies inside candidate face `j`), and the planar-surface search
`BRepLib_FindSurface(..., OnlyPlane=True).Found()` is the oracle `found`.
-/

/-- An output face of the resolver: the outer wire plus its holes, all as
input indices. -/
structure SoupFace where
  outer : Nat
  holes : List Nat
  deriving DecidableEq, Repr

/-- `are_wires_coplanar`: an empty collection counts as coplanar, else
defer to the kernel's planar-surface search result. -/
def are_wires_coplanar (n : Nat) (found : Bool) : Bool :=
  n == 0 || found

/-- `included_in[i]`, as the ascending list of the containers of wire `i`:
all `j ≠ i` with `IsInside(face_i, face_j)`. -/
def ancestors (n : Nat) (ins : Nat → Nat → Bool) (i : Nat) : List Nat :=
  (List.range n).filter (fun j => decide (i ≠ j) && ins i j)

/-- Python's `max(xs, key=key)`: the first element attaining the maximal
key (the running best is replaced only on strictly greater key).  On the
empty list Python raises; the code only calls it on a nonempty list of
ancestors, and the `0` default is never reached there. -/
def pymax (key : Nat → Nat) : List Nat → Nat
  | [] => 0
  | x :: xs => xs.foldl (fun b a => if key b < key a then a else b) x

/-- `max(ancestors, key=lambda i: len(included_in.get(i, set())))`:
the container of `i` with the most containers of its own. -/
def parentOf (n : Nat) (ins : Nat → Nat → Bool) (i : Nat) : Nat :=
  pymax (fun j => (ancestors n ins j).length) (ancestors n ins i)

/-- One group of the `outers_and_inners` dict: a pair of wire-index lists
`(outers, inners)`. -/
abbrev SoupGroup := List Nat × List Nat

/-- `d.setdefault(k, ([], []))` followed by an in-place update of the
returned group: insertion-ordered association list semantics. -/
def dictUpdate (d : List (Nat × SoupGroup)) (k : Nat) (f : SoupGroup → SoupGroup) :
    List (Nat × SoupGroup) :=
  match d with
  | [] => [(k, f ([], []))]
  | (k', v) :: rest =>
    if k' = k then (k', f v) :: rest else (k', v) :: dictUpdate rest k f

/-- Lookup in the insertion-ordered dict. -/
def dictFind (d : List (Nat × SoupGroup)) (k : Nat) : Option SoupGroup :=
  match d with
  | [] => none
  | (k', v) :: rest => if k' = k then some v else dictFind rest k

/-- The body of the `for i in range(len(faces))` loop: an odd number of
ancestors makes wire `i` an inner ring appended to its parent's group,
an even number makes it the outer ring of its own group. -/
def soupStep (n : Nat) (ins : Nat → Nat → Bool) (d : List (Nat × SoupGroup)) (i : Nat) :
    List (Nat × SoupGroup) :=
  if (ancestors n ins i).length % 2 = 1 then
    dictUpdate d (parentOf n ins i) (fun g => (g.1, g.2 ++ [i]))
  else
    dictUpdate d i (fun g => (g.1 ++ [i], g.2))

/-- The `outers_and_inners` dict after the whole classification loop. -/
def soupDict (n : Nat) (ins : Nat → Nat → Bool) : List (Nat × SoupGroup) :=
  (List.range n).foldl (soupStep n ins) []

/-- The final loop body over one group: a single outer makes one face
with the collected inners as holes; otherwise — the defensive fallback —
every wire of the group is emitted as a simple face and a
`logger.warn("invalid nesting ...")` diagnostic (second component) is
recorded. -/
def assembleGroup (g : SoupGroup) : List SoupFace × List String :=
  match g with
  | ([o], inners) => ([⟨o, inners⟩], [])
  | (outers, inners) =>
    ((outers ++ inners).map (fun w => ⟨w, []⟩), ["invalid nesting"])

/-- `faces_from_wire_soup`, with the generator read as the full sequence
it yields: raise when the coplanarity precondition fails; with fewer than
2 candidate faces yield them as they are (wire `i` as a plain face);
otherwise classify by containment-depth parity and assemble. -/
def faces_from_wire_soup (n : Nat) (ins : Nat → Nat → Bool) (found : Bool) :
    Except String (List SoupFace × List String) :=
  if are_wires_coplanar n found then
    if n < 2 then Except.ok ((List.range n).map (fun i => ⟨i, []⟩), [])
    else
      let d := soupDict n ins
      Except.ok (d.flatMap (fun kv => (assembleGroup kv.2).1),
                 d.flatMap (fun kv => (assembleGroup kv.2).2))
  else Except.error "wires not coplanar"

/-- The containment oracle of the three concentric circles with radii
10, 7, 3 (indices 0, 1, 2): the disk of radius 7 lies inside the disk of
radius 10, and the disk of radius 3 lies inside both. -/
def circIns : Nat → Nat → Bool := fun i j =>
  (i == 1 && j == 0) || (i == 2 && j == 0) || (i == 2 && j == 1)

/-- Whether wire `i` sits at odd containment depth (an inner ring). -/
def isHoleWire (n : Nat) (ins : Nat → Nat → Bool) (i : Nat) : Bool :=
  decide ((ancestors n ins i).length % 2 = 1)

/-- The dict key wire `i` contributes to: its parent when it is an inner
ring, itself when it is an outer ring. -/
def keyOf (n : Nat) (ins : Nat → Nat → Bool) (i : Nat) : Nat :=
  if isHoleWire n ins i then parentOf n ins i else i

/-- The outer entries group `k` accumulates while processing `l`. -/
def outersAcc (n : Nat) (ins : Nat → Nat → Bool) (l : List Nat) (k : Nat) : List Nat :=
  l.filter (fun i => !isHoleWire n ins i && i == k)

/-- The inner entries group `k` accumulates while processing `l`. -/
def innersAcc (n : Nat) (ins : Nat → Nat → Bool) (l : List Nat) (k : Nat) : List Nat :=
  l.filter (fun i => isHoleWire n ins i && parentOf n ins i == k)

/-- Whether some wire in `l` contributes to group `k`. -/
def touched (n : Nat) (ins : Nat → Nat → Bool) (l : List Nat) (k : Nat) : Bool :=
  l.any (fun i => keyOf n ins i == k)

theorem dictFind_update_self (d : List (Nat × SoupGroup)) (k : Nat) (f : SoupGroup → SoupGroup) :
    dictFind (dictUpdate d k f) k = some (f ((dictFind d k).getD ([], []))) := by
  induction d with
  | nil => simp [dictUpdate, dictFind]
  | cons kv rest ih =>
    obtain ⟨k', v⟩ := kv
    by_cases h : k' = k
    · simp [dictUpdate, dictFind, h]
    · simp [dictUpdate, dictFind, h, ih]

theorem dictFind_update_ne (d : List (Nat × SoupGroup)) (k : Nat) (f : SoupGroup → SoupGroup)
    (k' : Nat) (h : k' ≠ k) : dictFind (dictUpdate d k f) k' = dictFind d k' := by
  have hne : ¬k = k' := fun hk => h hk.symm
  induction d with
  | nil => simp [dictUpdate, dictFind, hne]
  | cons kv rest ih =>
    obtain ⟨k0, v⟩ := kv
    by_cases h0 : k0 = k
    · subst h0
      simp [dictUpdate, dictFind, hne]
    · simp [dictUpdate, dictFind, h0, ih]

theorem dictFind_mem (d : List (Nat × SoupGroup)) (k : Nat) (g : SoupGroup)
    (h : dictFind d k = some g) : (k, g) ∈ d := by
  induction d with
  | nil => simp [dictFind] at h
  | cons kv rest ih =>
    obtain ⟨k', v⟩ := kv
    by_cases hk : k' = k
    · subst hk
      simp [dictFind] at h
      subst h
      exact List.mem_cons_self _ _
    · simp [dictFind, hk] at h
      exact List.mem_cons_of_mem _ (ih h)

theorem soupStep_eq (n : Nat) (ins : Nat → Nat → Bool) (d : List (Nat × SoupGroup)) (i : Nat) :
    soupStep n ins d i =
      dictUpdate d (keyOf n ins i)
        (fun g => if isHoleWire n ins i then (g.1, g.2 ++ [i]) else (g.1 ++ [i], g.2)) := by
  unfold soupStep keyOf isHoleWire
  by_cases h : (ancestors n ins i).length % 2 = 1 <;> simp [h]

theorem touched_nil_filters (n : Nat) (ins : Nat → Nat → Bool) (l : List Nat) (k : Nat)
    (h : touched n ins l k = false) :
    outersAcc n ins l k = [] ∧ innersAcc n ins l k = [] := by
  simp only [touched, List.any_eq_false, beq_iff_eq] at h
  constructor
  · rw [outersAcc, List.filter_eq_nil_iff]
    intro a ha hcond
    simp only [Bool.and_eq_true, Bool.not_eq_true', beq_iff_eq] at hcond
    have hkey : keyOf n ins a = a := by unfold keyOf; rw [hcond.1]; simp
    exact h a ha (hkey.trans hcond.2)
  · rw [innersAcc, List.filter_eq_nil_iff]
    intro a ha hcond
    simp only [Bool.and_eq_true, beq_iff_eq] at hcond
    have hkey : keyOf n ins a = parentOf n ins a := by unfold keyOf; rw [hcond.1]; simp
    exact h a ha (hkey.trans hcond.2)

theorem soupFold_find (n : Nat) (ins : Nat → Nat → Bool) (l : List Nat) (k : Nat) :
    dictFind (l.foldl (soupStep n ins) []) k =
      if touched n ins l k = true then some (outersAcc n ins l k, innersAcc n ins l k)
      else none := by
  induction l using List.reverseRecOn with
  | nil => simp [touched, dictFind, outersAcc, innersAcc]
  | append_singleton l i ih =>
    rw [List.foldl_append, List.foldl_cons, List.foldl_nil, soupStep_eq]
    have houts : outersAcc n ins (l ++ [i]) k
        = outersAcc n ins l k ++ (if !isHoleWire n ins i && i == k then [i] else []) := by
      simp [outersAcc, List.filter_append, List.filter_singleton]
    have hinns : innersAcc n ins (l ++ [i]) k
        = innersAcc n ins l k
            ++ (if isHoleWire n ins i && parentOf n ins i == k then [i] else []) := by
      simp [innersAcc, List.filter_append, List.filter_singleton]
    have htch : touched n ins (l ++ [i]) k
        = (touched n ins l k || (keyOf n ins i == k)) := by
      simp [touched, List.any_append]
    by_cases hk : keyOf n ins i = k
    · rw [hk, dictFind_update_self, ih, houts, hinns, htch]
      have hkk : (keyOf n ins i == k) = true := by simp [hk]
      by_cases hhole : isHoleWire n ins i = true
      · have hpar : parentOf n ins i = k := by simpa [keyOf, hhole] using hk
        by_cases ht : touched n ins l k = true
        · simp [ht, hkk, hhole, hpar]
        · have hnil := touched_nil_filters n ins l k (by simpa using ht)
          simp [ht, hkk, hhole, hpar, hnil.1, hnil.2]
      · have hhole' : isHoleWire n ins i = false := by simpa using hhole
        have hid : i = k := by simpa [keyOf, hhole'] using hk
        subst hid
        by_cases ht : touched n ins l i = true
        · simp [ht, hkk, hhole', keyOf]
        · have hnil := touched_nil_filters n ins l i (by simpa using ht)
          simp [ht, hkk, hhole', keyOf, hnil.1, hnil.2]
    · rw [dictFind_update_ne _ _ _ _ (fun h => hk h.symm), ih, houts, hinns, htch]
      have hkk : (keyOf n ins i == k) = false := by simp [hk]
      have h1 : (!isHoleWire n ins i && i == k) = false := by
        by_cases hhole : isHoleWire n ins i = true
        · simp [hhole]
        · have hhole' : isHoleWire n ins i = false := by simpa using hhole
          have hik : ¬i = k := fun hik => hk (by simpa [keyOf, hhole'] using hik)
          simp [hhole', hik]
      have h2 : (isHoleWire n ins i && parentOf n ins i == k) = false := by
        by_cases hhole : isHoleWire n ins i = true
        · have hp : ¬parentOf n ins i = k := fun hp => hk (by simpa [keyOf, hhole] using hp)
          simp [hhole, hp]
        · have hhole' : isHoleWire n ins i = false := by simpa using hhole
          simp [hhole']
      rw [h1, h2]
      simp [hkk]

theorem soupDict_find (n : Nat) (ins : Nat → Nat → Bool) (k : Nat) :
    dictFind (soupDict n ins) k =
      if touched n ins (List.range n) k = true
      then some (outersAcc n ins (List.range n) k, innersAcc n ins (List.range n) k)
      else none :=
  soupFold_find n ins (List.range n) k

theorem pymax_foldl_spec (key : Nat → Nat) (xs : List Nat) (b : Nat) :
    ∃ r, xs.foldl (fun b a => if key b < key a then a else b) b = r ∧
      ((r = b ∧ ∀ y ∈ xs, key y ≤ key b) ∨
       (∃ l₁ l₂, xs = l₁ ++ r :: l₂ ∧ key b < key r ∧
         (∀ y ∈ l₁, key y < key r) ∧ (∀ y ∈ l₂, key y ≤ key r))) := by
  induction xs generalizing b with
  | nil => exact ⟨b, rfl, Or.inl ⟨rfl, by simp⟩⟩
  | cons x xs ih =>
    rw [List.foldl_cons]
    by_cases hlt : key b < key x
    · rw [if_pos hlt]
      obtain ⟨r, hr, hcase⟩ := ih x
      refine ⟨r, hr, Or.inr ?_⟩
      rcases hcase with ⟨req, hb⟩ | ⟨l₁, l₂, hsplit, hbr, hpre, hsuf⟩
      · subst req
        exact ⟨[], xs, by simp, hlt, by simp, hb⟩
      · refine ⟨x :: l₁, l₂, by simp [hsplit], lt_trans hlt hbr, ?_, hsuf⟩
        intro y hy
        rcases List.mem_cons.mp hy with hy | hy
        · subst hy; exact hbr
        · exact hpre y hy
    · rw [if_neg hlt]
      obtain ⟨r, hr, hcase⟩ := ih b
      refine ⟨r, hr, ?_⟩
      rcases hcase with ⟨req, hb⟩ | ⟨l₁, l₂, hsplit, hbr, hpre, hsuf⟩
      · subst req
        refine Or.inl ⟨rfl, ?_⟩
        intro y hy
        rcases List.mem_cons.mp hy with hy | hy
        · subst hy; exact le_of_not_lt hlt
        · exact hb y hy
      · refine Or.inr ⟨x :: l₁, l₂, by simp [hsplit], hbr, ?_, hsuf⟩
        intro y hy
        rcases List.mem_cons.mp hy with hy | hy
        · subst hy; exact lt_of_le_of_lt (le_of_not_lt hlt) hbr
        · exact hpre y hy

/-- The first-maximum property of Python's `max(..., key=...)`: the result
splits the list into a strict-smaller-key part before it and an
at-most-equal-key part after it. -/
theorem pymax_spec (key : Nat → Nat) (x : Nat) (xs : List Nat) :
    ∃ l₁ l₂, x :: xs = l₁ ++ pymax key (x :: xs) :: l₂ ∧
      (∀ y ∈ l₁, key y < key (pymax key (x :: xs))) ∧
      (∀ y ∈ l₂, key y ≤ key (pymax key (x :: xs))) := by
  obtain ⟨r, hr, hcase⟩ := pymax_foldl_spec key xs x
  have hpy : pymax key (x :: xs) = r := hr
  rw [hpy]
  rcases hcase with ⟨req, hb⟩ | ⟨l₁, l₂, hsplit, hbr, hpre, hsuf⟩
  · subst req
    exact ⟨[], xs, by simp, by simp, hb⟩
  · refine ⟨x :: l₁, l₂, by simp [hsplit], ?_, hsuf⟩
    intro y hy
    rcases List.mem_cons.mp hy with hy | hy
    · subst hy; exact hbr
    · exact hpre y hy

theorem pymax_mem (key : Nat → Nat) (l : List Nat) (h : l ≠ []) : pymax key l ∈ l := by
  match l with
  | x :: xs =>
    obtain ⟨l₁, l₂, hsplit, _, _⟩ := pymax_spec key x xs
    have hmem : pymax key (x :: xs) ∈ l₁ ++ pymax key (x :: xs) :: l₂ := by simp
    rw [← hsplit] at hmem
    exact hmem

theorem pymax_le (key : Nat → Nat) (l : List Nat) (h : l ≠ []) :
    ∀ y ∈ l, key y ≤ key (pymax key l) := by
  match l with
  | x :: xs =>
    obtain ⟨l₁, l₂, hsplit, hpre, hsuf⟩ := pymax_spec key x xs
    intro y hy
    rw [hsplit] at hy
    rcases List.mem_append.mp hy with hy | hy
    · exact le_of_lt (hpre y hy)
    · rcases List.mem_cons.mp hy with hy | hy
      · subst hy; exact le_refl _
      · exact hsuf y hy

theorem mem_ancestors (n : Nat) (ins : Nat → Nat → Bool) (i j : Nat) :
    j ∈ ancestors n ins i ↔ j < n ∧ i ≠ j ∧ ins i j = true := by
  simp [ancestors, List.mem_filter, List.mem_range, and_assoc]

theorem ancestors_nodup (n : Nat) (ins : Nat → Nat → Bool) (i : Nat) :
    (ancestors n ins i).Nodup :=
  (List.nodup_range n).filter _

theorem ancestors_step_subset (n : Nat) (ins : Nat → Nat → Bool)
    (htrans : ∀ i j k, i < n → j < n → k < n →
      ins i j = true → ins j k = true → ins i k = true)
    (hanti : ∀ i j, i < n → j < n → ins i j = true → ins j i = true → False)
    (i a : Nat) (hi : i < n) (ha : a ∈ ancestors n ins i) :
    ∀ b ∈ ancestors n ins a, b ∈ ancestors n ins i ∧ b ≠ a := by
  intro b hb
  obtain ⟨hbn, hab, hinsab⟩ := (mem_ancestors n ins a b).mp hb
  obtain ⟨han, hia, hinsia⟩ := (mem_ancestors n ins i a).mp ha
  have hinsib : ins i b = true := htrans i a b hi han hbn hinsia hinsab
  have hib : i ≠ b := by
    intro hib
    subst hib
    exact hanti a i han hi hinsab hinsia
  exact ⟨(mem_ancestors n ins i b).mpr ⟨hbn, hib, hinsib⟩, fun hba => hab hba.symm⟩

theorem ancCount_lt_of_mem (n : Nat) (ins : Nat → Nat → Bool)
    (htrans : ∀ i j k, i < n → j < n → k < n →
      ins i j = true → ins j k = true → ins i k = true)
    (hanti : ∀ i j, i < n → j < n → ins i j = true → ins j i = true → False)
    (i a : Nat) (hi : i < n) (ha : a ∈ ancestors n ins i) :
    (ancestors n ins a).length < (ancestors n ins i).length := by
  have hsub : ancestors n ins a ⊆ (ancestors n ins i).erase a := by
    intro b hb
    obtain ⟨hmem, hne⟩ := ancestors_step_subset n ins htrans hanti i a hi ha b hb
    exact (List.mem_erase_of_ne hne).mpr hmem
  have hle := (List.subperm_of_subset (ancestors_nodup n ins a) hsub).length_le
  have hlen : ((ancestors n ins i).erase a).length = (ancestors n ins i).length - 1 :=
    List.length_erase_of_mem ha
  have hpos : 0 < (ancestors n ins i).length := List.length_pos_of_mem ha
  omega

theorem exists_list_least (n : Nat) (ins : Nat → Nat → Bool)
    (htrans : ∀ i j k, i < n → j < n → k < n →
      ins i j = true → ins j k = true → ins i k = true) :
    ∀ l : List Nat, l ≠ [] → (∀ x ∈ l, x < n) →
      (∀ x ∈ l, ∀ y ∈ l, x = y ∨ ins x y = true ∨ ins y x = true) →
      ∃ a ∈ l, ∀ b ∈ l, b ≠ a → ins a b = true := by
  intro l
  induction l with
  | nil => intro h; exact absurd rfl h
  | cons x l ih =>
    intro _ hbound hcomp
    rcases eq_or_ne l [] with hl | hl
    · subst hl
      refine ⟨x, by simp, ?_⟩
      intro b hb hbx
      simp at hb
      exact absurd hb hbx
    · obtain ⟨a, hal, hleast⟩ := ih hl (fun y hy => hbound y (List.mem_cons_of_mem _ hy))
        (fun u hu v hv =>
          hcomp u (List.mem_cons_of_mem _ hu) v (List.mem_cons_of_mem _ hv))
      rcases hcomp x (List.mem_cons_self _ _) a (List.mem_cons_of_mem _ hal) with
        hxa | hxa | hxa
      · subst hxa
        refine ⟨x, List.mem_cons_self _ _, ?_⟩
        intro b hb hbx
        rcases List.mem_cons.mp hb with hb | hb
        · exact absurd hb hbx
        · exact hleast b hb hbx
      · refine ⟨x, List.mem_cons_self _ _, ?_⟩
        intro b hb hbx
        rcases List.mem_cons.mp hb with hb | hb
        · exact absurd hb hbx
        · rcases eq_or_ne b a with hba | hba
          · subst hba; exact hxa
          · exact htrans x a b (hbound x (List.mem_cons_self _ _))
              (hbound a (List.mem_cons_of_mem _ hal))
              (hbound b (List.mem_cons_of_mem _ hb)) hxa (hleast b hb hba)
      · refine ⟨a, List.mem_cons_of_mem _ hal, ?_⟩
        intro b hb hba
        rcases List.mem_cons.mp hb with hb | hb
        · subst hb; exact hxa
        · exact hleast b hb hba

theorem parentOf_eq_pymax (n : Nat) (ins : Nat → Nat → Bool) (i : Nat) :
    parentOf n ins i =
      pymax (fun j => (ancestors n ins j).length) (ancestors n ins i) :=
  rfl

theorem parentOf_depth (n : Nat) (ins : Nat → Nat → Bool)
    (htrans : ∀ i j k, i < n → j < n → k < n →
      ins i j = true → ins j k = true → ins i k = true)
    (hanti : ∀ i j, i < n → j < n → ins i j = true → ins j i = true → False)
    (hchain : ∀ i j k, i < n → j < n → k < n → ins i j = true → ins i k = true →
      j = k ∨ ins j k = true ∨ ins k j = true)
    (i : Nat) (hi : i < n) (hne : ancestors n ins i ≠ []) :
    parentOf n ins i ∈ ancestors n ins i ∧
    (ancestors n ins (parentOf n ins i)).length = (ancestors n ins i).length - 1 := by
  have hmem : parentOf n ins i ∈ ancestors n ins i := by
    rw [parentOf_eq_pymax]
    exact pymax_mem _ _ hne
  refine ⟨hmem, ?_⟩
  obtain ⟨a0, ha0, hleast⟩ := exists_list_least n ins htrans (ancestors n ins i) hne
    (fun x hx => ((mem_ancestors n ins i x).mp hx).1)
    (fun x hx y hy => by
      obtain ⟨hxn, hix, hinsx⟩ := (mem_ancestors n ins i x).mp hx
      obtain ⟨hyn, hiy, hinsy⟩ := (mem_ancestors n ins i y).mp hy
      exact hchain i x y hi hxn hyn hinsx hinsy)
  have hsub1 : ancestors n ins a0 ⊆ (ancestors n ins i).erase a0 := by
    intro b hb
    obtain ⟨hmem2, hne2⟩ := ancestors_step_subset n ins htrans hanti i a0 hi ha0 b hb
    exact (List.mem_erase_of_ne hne2).mpr hmem2
  have hsub2 : (ancestors n ins i).erase a0 ⊆ ancestors n ins a0 := by
    intro b hb
    obtain ⟨hba0, hbmem⟩ := ((ancestors_nodup n ins i).mem_erase_iff).mp hb
    obtain ⟨hbn, hib, hinsib⟩ := (mem_ancestors n ins i b).mp hbmem
    exact (mem_ancestors n ins a0 b).mpr
      ⟨hbn, fun h => hba0 h.symm, hleast b hbmem hba0⟩
  have hlen1 := (List.subperm_of_subset (ancestors_nodup n ins a0) hsub1).length_le
  have hlen2 := (List.subperm_of_subset
    ((ancestors_nodup n ins i).erase a0) hsub2).length_le
  have herase : ((ancestors n ins i).erase a0).length = (ancestors n ins i).length - 1 :=
    List.length_erase_of_mem ha0
  have h1 : (ancestors n ins a0).length ≤ (ancestors n ins (parentOf n ins i)).length := by
    rw [parentOf_eq_pymax]
    exact pymax_le (fun j => (ancestors n ins j).length) _ hne a0 ha0
  have h2 := ancCount_lt_of_mem n ins htrans hanti i (parentOf n ins i) hi hmem
  have hpos : 0 < (ancestors n ins i).length := List.length_pos.mpr hne
  omega

theorem parentOf_outer (n : Nat) (ins : Nat → Nat → Bool)
    (htrans : ∀ i j k, i < n → j < n → k < n →
      ins i j = true → ins j k = true → ins i k = true)
    (hanti : ∀ i j, i < n → j < n → ins i j = true → ins j i = true → False)
    (hchain : ∀ i j k, i < n → j < n → k < n → ins i j = true → ins i k = true →
      j = k ∨ ins j k = true ∨ ins k j = true)
    (i : Nat) (hi : i < n) (hhole : isHoleWire n ins i = true) :
    parentOf n ins i ∈ ancestors n ins i ∧
    isHoleWire n ins (parentOf n ins i) = false := by
  have hoddn : (ancestors n ins i).length % 2 = 1 := by
    simpa [isHoleWire] using hhole
  have hne : ancestors n ins i ≠ [] := by
    intro h
    rw [h] at hoddn
    simp at hoddn
  obtain ⟨hmem, hlen⟩ := parentOf_depth n ins htrans hanti hchain i hi hne
  have hpos : 0 < (ancestors n ins i).length := List.length_pos.mpr hne
  refine ⟨hmem, ?_⟩
  simp only [isHoleWire, decide_eq_false_iff_not]
  omega

theorem filter_beq_singleton (p : Nat → Bool) (i : Nat) :
    ∀ l : List Nat, l.Nodup → i ∈ l → p i = true →
      l.filter (fun x => p x && x == i) = [i] := by
  intro l
  induction l with
  | nil => intro _ h; simp at h
  | cons a l ih =>
    intro hnd hmem hp
    rcases List.mem_cons.mp hmem with ha | ha
    · subst ha
      rw [List.filter_cons]
      have hcond : (p i && i == i) = true := by simp [hp]
      rw [if_pos hcond]
      have hnot : ∀ x ∈ l, ¬(p x && x == i) = true := by
        intro x hx hc
        simp only [Bool.and_eq_true, beq_iff_eq] at hc
        exact (List.nodup_cons.mp hnd).1 (hc.2 ▸ hx)
      rw [List.filter_eq_nil_iff.mpr hnot]
    · have hne : a ≠ i := by
        intro h
        subst h
        exact (List.nodup_cons.mp hnd).1 ha
      rw [List.filter_cons]
      have hcond : (p a && a == i) = false := by simp [hne]
      rw [if_neg (by simp [hcond])]
      exact ih (List.nodup_cons.mp hnd).2 ha hp

theorem outersAcc_range_outer (n : Nat) (ins : Nat → Nat → Bool) (k : Nat)
    (hk : k < n) (hout : isHoleWire n ins k = false) :
    outersAcc n ins (List.range n) k = [k] := by
  unfold outersAcc
  exact filter_beq_singleton (fun x => !isHoleWire n ins x) k (List.range n)
    (List.nodup_range n) (List.mem_range.mpr hk) (by simp [hout])

theorem touched_range_of_mem (n : Nat) (ins : Nat → Nat → Bool) (i : Nat) (hi : i < n) :
    touched n ins (List.range n) (keyOf n ins i) = true := by
  refine List.any_eq_true.mpr ⟨i, List.mem_range.mpr hi, ?_⟩
  simp

theorem mem_innersAcc_range (n : Nat) (ins : Nat → Nat → Bool) (i : Nat)
    (hi : i < n) (hhole : isHoleWire n ins i = true) :
    i ∈ innersAcc n ins (List.range n) (parentOf n ins i) := by
  unfold innersAcc
  refine List.mem_filter.mpr ⟨List.mem_range.mpr hi, ?_⟩
  simp [hhole]

theorem assembleGroup_single (o : Nat) (inners : List Nat) :
    assembleGroup ([o], inners) = ([⟨o, inners⟩], []) :=
  rfl

theorem assembleGroup_fallback (outers inners : List Nat) (h : outers.length ≠ 1) :
    assembleGroup (outers, inners) =
      ((outers ++ inners).map (fun w => ⟨w, []⟩), ["invalid nesting"]) := by
  match outers with
  | [] => rfl
  | [o] => exact absurd rfl h
  | _ :: _ :: _ => rfl

theorem faces_from_wire_soup_big (n : Nat) (ins : Nat → Nat → Bool) (found : Bool)
    (hcop : are_wires_coplanar n found = true) (hn : 2 ≤ n) :
    faces_from_wire_soup n ins found =
      Except.ok ((soupDict n ins).flatMap (fun kv => (assembleGroup kv.2).1),
                 (soupDict n ins).flatMap (fun kv => (assembleGroup kv.2).2)) := by
  unfold faces_from_wire_soup
  rw [if_pos hcop, if_neg (by omega)]

/-- C1: under the chain axioms of genuine planar non-intersecting nesting
(strict containment is transitive and antisymmetric, and the containers of
any one wire are totally ordered by containment), every wire with an even
number of containment ancestors becomes the outer boundary of an output
face and every wire with an odd number becomes a hole of some output
face; and the three concentric circles of radii 10, 7, 3 resolve to
exactly the two faces (outer 10 with hole 7) and (outer 3, no holes). -/
theorem c1_depth_parity (n : Nat) (ins : Nat → Nat → Bool) (found : Bool)
    (htrans : ∀ i j k, i < n → j < n → k < n →
      ins i j = true → ins j k = true → ins i k = true)
    (hanti : ∀ i j, i < n → j < n → ins i j = true → ins j i = true → False)
    (hchain : ∀ i j k, i < n → j < n → k < n → ins i j = true → ins i k = true →
      j = k ∨ ins j k = true ∨ ins k j = true)
    (hn : 0 < n) (faces : List SoupFace) (warns : List String)
    (hrun : faces_from_wire_soup n ins found = Except.ok (faces, warns)) :
    (∀ i, i < n → (ancestors n ins i).length % 2 = 0 → ∃ f ∈ faces, f.outer = i) ∧
    (∀ i, i < n → (ancestors n ins i).length % 2 = 1 → ∃ f ∈ faces, i ∈ f.holes) ∧
    faces_from_wire_soup 3 circIns true = Except.ok ([⟨0, [1]⟩, ⟨2, []⟩], []) := by
  have hcop : are_wires_coplanar n found = true := by
    by_contra hc
    unfold faces_from_wire_soup at hrun
    rw [if_neg hc] at hrun
    exact Except.noConfusion hrun
  refine ⟨?_, ?_, rfl⟩
  · intro i hi heven
    by_cases h2 : n < 2
    · have hn1 : n = 1 := by omega
      subst hn1
      have hi0 : i = 0 := by omega
      subst hi0
      unfold faces_from_wire_soup at hrun
      rw [if_pos hcop, if_pos (by omega)] at hrun
      simp only [Except.ok.injEq, Prod.mk.injEq] at hrun
      obtain ⟨hfaces, _⟩ := hrun
      rw [← hfaces]
      exact ⟨⟨0, []⟩, by simp [List.range_succ], rfl⟩
    · rw [faces_from_wire_soup_big n ins found hcop (by omega)] at hrun
      simp only [Except.ok.injEq, Prod.mk.injEq] at hrun
      obtain ⟨hfaces, _⟩ := hrun
      have hout : isHoleWire n ins i = false := by
        simp only [isHoleWire, decide_eq_false_iff_not]
        omega
      have hkey : keyOf n ins i = i := by simp [keyOf, hout]
      have htch : touched n ins (List.range n) i = true := by
        have h := touched_range_of_mem n ins i hi
        rwa [hkey] at h
      have hfind := soupDict_find n ins i
      rw [if_pos htch, outersAcc_range_outer n ins i hi hout] at hfind
      refine ⟨⟨i, innersAcc n ins (List.range n) i⟩, ?_, rfl⟩
      rw [← hfaces]
      exact List.mem_flatMap.mpr
        ⟨(i, ([i], innersAcc n ins (List.range n) i)), dictFind_mem _ _ _ hfind,
          by simp [assembleGroup_single]⟩
  · intro i hi hodd
    by_cases h2 : n < 2
    · have hn1 : n = 1 := by omega
      subst hn1
      have hi0 : i = 0 := by omega
      subst hi0
      have hanc : ancestors 1 ins 0 = [] := by
        simp [ancestors, List.range_succ]
      rw [hanc] at hodd
      simp at hodd
    · rw [faces_from_wire_soup_big n ins found hcop (by omega)] at hrun
      simp only [Except.ok.injEq, Prod.mk.injEq] at hrun
      obtain ⟨hfaces, _⟩ := hrun
      have hhole : isHoleWire n ins i = true := by simp [isHoleWire, hodd]
      obtain ⟨hpmem, hpout⟩ := parentOf_outer n ins htrans hanti hchain i hi hhole
      have hpn : parentOf n ins i < n :=
        ((mem_ancestors n ins i (parentOf n ins i)).mp hpmem).1
      have hkey : keyOf n ins i = parentOf n ins i := by simp [keyOf, hhole]
      have htch : touched n ins (List.range n) (parentOf n ins i) = true := by
        have h := touched_range_of_mem n ins i hi
        rwa [hkey] at h
      have hfind := soupDict_find n ins (parentOf n ins i)
      rw [if_pos htch, outersAcc_range_outer n ins _ hpn hpout] at hfind
      refine ⟨⟨parentOf n ins i, innersAcc n ins (List.range n) (parentOf n ins i)⟩,
        ?_, mem_innersAcc_range n ins i hi hhole⟩
      rw [← hfaces]
      exact List.mem_flatMap.mpr
        ⟨(parentOf n ins i,
            ([parentOf n ins i], innersAcc n ins (List.range n) (parentOf n ins i))),
          dictFind_mem _ _ _ hfind, by simp [assembleGroup_single]⟩

/-- C1 witness: in the three-circle instance, wire 2 (even depth 2) is the
outer boundary of a face and wire 1 (odd depth 1) is a hole of a face. -/
theorem c1_witness :
    (∃ f ∈ [({ outer := 0, holes := [1] } : SoupFace), { outer := 2, holes := [] }],
      f.outer = 2) ∧
    (∃ f ∈ [({ outer := 0, holes := [1] } : SoupFace), { outer := 2, holes := [] }],
      1 ∈ f.holes) := by
  have h := c1_depth_parity 3 circIns true
    (by intro i j k hi hj hk hij hjk
        interval_cases i <;> interval_cases j <;> interval_cases k <;> simp_all [circIns])
    (by intro i j hi hj hij hji
        interval_cases i <;> interval_cases j <;> simp_all [circIns])
    (by intro i j k hi hj hk hij hik
        interval_cases i <;> interval_cases j <;> interval_cases k <;> simp_all [circIns])
    (by omega) [⟨0, [1]⟩, ⟨2, []⟩] [] rfl
  exact ⟨h.1 2 (by omega) (by decide), h.2.1 1 (by omega) (by decide)⟩

/-- C5: `faces_from_wire_soup` raises exactly when the coplanarity test
fails (empty input counts as coplanar, `not wires or Found()`), and the
empty input yields the empty output with no error and no warning. -/
theorem c5_noncoplanar_error (n : Nat) (ins : Nat → Nat → Bool) (found : Bool) :
    ((∃ e, faces_from_wire_soup n ins found = Except.error e) ↔
      are_wires_coplanar n found = false) ∧
    faces_from_wire_soup 0 ins found = Except.ok ([], []) := by
  constructor
  · constructor
    · rintro ⟨e, he⟩
      by_contra hc
      have hcop : are_wires_coplanar n found = true := by
        cases h : are_wires_coplanar n found
        · exact absurd h hc
        · rfl
      unfold faces_from_wire_soup at he
      rw [if_pos hcop] at he
      by_cases h2 : n < 2
      · rw [if_pos h2] at he
        exact Except.noConfusion he
      · rw [if_neg h2] at he
        exact Except.noConfusion he
    · intro h
      refine ⟨"wires not coplanar", ?_⟩
      unfold faces_from_wire_soup
      rw [if_neg (by simp [h])]
  · unfold faces_from_wire_soup
    rw [if_pos (by simp [are_wires_coplanar]), if_pos (by omega)]
    simp

/-- C5 witness: one wire with a failed planar-surface search raises, and
the empty soup returns the empty face list without error. -/
theorem c5_witness :
    (∃ e, faces_from_wire_soup 1 circIns false = Except.error e) ∧
    faces_from_wire_soup 0 circIns false = Except.ok ([], []) :=
  ⟨(c5_noncoplanar_error 1 circIns false).1.mpr rfl,
   (c5_noncoplanar_error 0 circIns false).2⟩

/-- C6: an odd-depth wire `i` is appended to the inners of the group of
`parentOf i`, which is the ancestor of `i` whose own ancestor count is
maximal, and on ties the first such ancestor in iteration order (every
ancestor strictly before it in the list has a strictly smaller count) —
not an arbitrary or the outermost one. -/
theorem c6_nearest_ancestor (n : Nat) (ins : Nat → Nat → Bool) (i : Nat)
    (hi : i < n) (hodd : (ancestors n ins i).length % 2 = 1) :
    parentOf n ins i ∈ ancestors n ins i ∧
    (∀ a ∈ ancestors n ins i,
      (ancestors n ins a).length ≤ (ancestors n ins (parentOf n ins i)).length) ∧
    (∃ l₁ l₂, ancestors n ins i = l₁ ++ parentOf n ins i :: l₂ ∧
      ∀ a ∈ l₁, (ancestors n ins a).length < (ancestors n ins (parentOf n ins i)).length) ∧
    (∃ g, dictFind (soupDict n ins) (parentOf n ins i) = some g ∧ i ∈ g.2) := by
  have hne : ancestors n ins i ≠ [] := by
    intro h
    rw [h] at hodd
    simp at hodd
  obtain ⟨x, xs, hxxs⟩ : ∃ x xs, ancestors n ins i = x :: xs := by
    match h : ancestors n ins i with
    | [] => exact absurd h hne
    | x :: xs => exact ⟨x, xs, rfl⟩
  refine ⟨?_, ?_, ?_, ?_⟩
  · rw [parentOf_eq_pymax]
    exact pymax_mem _ _ hne
  · rw [parentOf_eq_pymax]
    exact pymax_le _ _ hne
  · have hspec := pymax_spec (fun j => (ancestors n ins j).length) x xs
    rw [← hxxs, ← parentOf_eq_pymax] at hspec
    obtain ⟨l₁, l₂, hsplit, hpre, _⟩ := hspec
    exact ⟨l₁, l₂, hsplit, hpre⟩
  · have hhole : isHoleWire n ins i = true := by simp [isHoleWire, hodd]
    have hkey : keyOf n ins i = parentOf n ins i := by simp [keyOf, hhole]
    have htch := touched_range_of_mem n ins i hi
    rw [hkey] at htch
    have hfind := soupDict_find n ins (parentOf n ins i)
    rw [if_pos htch] at hfind
    exact ⟨_, hfind, mem_innersAcc_range n ins i hi hhole⟩

/-- C6 witness: in the three-circle instance, wire 1 (depth 1) is
assigned to the group of its unique (and nearest) ancestor, wire 0. -/
theorem c6_witness :
    parentOf 3 circIns 1 ∈ ancestors 3 circIns 1 ∧
    (∀ a ∈ ancestors 3 circIns 1,
      (ancestors 3 circIns a).length ≤
        (ancestors 3 circIns (parentOf 3 circIns 1)).length) ∧
    (∃ l₁ l₂, ancestors 3 circIns 1 = l₁ ++ parentOf 3 circIns 1 :: l₂ ∧
      ∀ a ∈ l₁, (ancestors 3 circIns a).length <
        (ancestors 3 circIns (parentOf 3 circIns 1)).length) ∧
    (∃ g, dictFind (soupDict 3 circIns) (parentOf 3 circIns 1) = some g ∧ 1 ∈ g.2) :=
  c6_nearest_ancestor 3 circIns 1 (by omega) (by decide)

/-- C7: on coplanar input with at least 2 wires, the resolver never
raises; a group whose outer-candidate count differs from one is emitted
degraded — each of its wires (outers and collected inners alike) as an
independent face with no holes, with the `invalid nesting` diagnostic
recorded — while every well-formed group still yields its face with its
holes. -/
theorem c7_invalid_nesting_fallback (n : Nat) (ins : Nat → Nat → Bool)
    (hn : 2 ≤ n) (faces : List SoupFace) (warns : List String)
    (hrun : faces_from_wire_soup n ins true = Except.ok (faces, warns)) :
    (∀ k outers inners, (k, (outers, inners)) ∈ soupDict n ins → outers.length ≠ 1 →
      "invalid nesting" ∈ warns ∧
        ∀ w ∈ outers ++ inners, (⟨w, []⟩ : SoupFace) ∈ faces) ∧
    (∀ k o inners, (k, ([o], inners)) ∈ soupDict n ins →
      (⟨o, inners⟩ : SoupFace) ∈ faces) := by
  have hcop : are_wires_coplanar n true = true := by simp [are_wires_coplanar]
  rw [faces_from_wire_soup_big n ins true hcop hn] at hrun
  simp only [Except.ok.injEq, Prod.mk.injEq] at hrun
  obtain ⟨hfaces, hwarns⟩ := hrun
  constructor
  · intro k outers inners hmem hlen
    constructor
    · rw [← hwarns]
      refine List.mem_flatMap.mpr ⟨(k, (outers, inners)), hmem, ?_⟩
      rw [assembleGroup_fallback _ _ hlen]
      simp
    · intro w hw
      rw [← hfaces]
      refine List.mem_flatMap.mpr ⟨(k, (outers, inners)), hmem, ?_⟩
      rw [assembleGroup_fallback _ _ hlen]
      exact List.mem_map.mpr ⟨w, hw, rfl⟩
  · intro k o inners hmem
    rw [← hfaces]
    exact List.mem_flatMap.mpr
      ⟨(k, ([o], inners)), hmem, by simp [assembleGroup_single]⟩

/-- A deliberately inconsistent containment oracle on two wires (each
reported inside the other) that drives both groups into the degenerate
zero-outer fallback. -/
def insMutual : Nat → Nat → Bool := fun i j =>
  (i == 0 && j == 1) || (i == 1 && j == 0)

/-- C7 witness: with the mutual-containment oracle the run still
succeeds, records the diagnostic, and emits wire 0 (an inner of the
outer-less group keyed 1) as an independent face with no holes. -/
theorem c7_witness :
    "invalid nesting" ∈ ["invalid nesting", "invalid nesting"] ∧
    ∀ w ∈ ([] ++ [0] : List Nat),
      (⟨w, []⟩ : SoupFace) ∈ [({ outer := 0, holes := [] } : SoupFace), ⟨1, []⟩] :=
  (c7_invalid_nesting_fallback 2 insMutual (by omega)
      [⟨0, []⟩, ⟨1, []⟩] ["invalid nesting", "invalid nesting"] rfl).1
    1 [] [0] (by decide) (by decide)

/-! ## Curve to Bezier conversion

Bezier curves carry their poles and rationality flag; B-splines carry, as
oracle data, the Bezier arcs that the kernel's exact splitting
`GeomConvert_BSplineCurveToBezierCurve` produces from them, together with
the kernel's guarantees on that splitting as proof fields.  The bounded
approximation search `GeomConvert_ApproxCurve` is an oracle function.
-/

/-- `GeomAbs_CurveType`, as far as the dispatch in `curve_to_beziers`
distinguishes it: any tag other than the three tested ones takes the
generic conversion branch. -/
inductive CurveType
  | line
  | circle
  | ellipse
  | bezierCurve
  | bsplineCurve
  | otherCurve
  deriving DecidableEq, Repr

/-- A Bezier curve: its poles and its `IsRational()` flag. -/
structure Bez where
  poles : List Pnt
  rational : Bool
  deriving DecidableEq, Repr

/-- `Degree()` of a Bezier: number of poles minus one. -/
def Bez.degree (b : Bez) : Nat := b.poles.length - 1

/-- `Geom_BezierCurve.MaxDegree_s()` (25 in OCCT). -/
def BEZIER_MAX_DEGREE : Nat := 25

/-- `bezier_curve(*controls)`: raise unless
`2 <= len(controls) <= BEZIER_MAX_DEGREE` (the source compares the
number of control points, not the degree, against `MaxDegree`), then
build the non-rational Bezier on these poles. -/
def bezier_curve (controls : List Pnt) : Except String Bez :=
  if 2 ≤ controls.length ∧ controls.length ≤ BEZIER_MAX_DEGREE then
    Except.ok ⟨controls, false⟩
  else
    Except.error "bezier curve must have between 2 and 25 control points"

/-- A B-spline as `bspline_to_beziers` observes it: degree, `IsRational()`
flag, distinct knots, and the arcs of the kernel's exact splitting.  The
proof fields are the kernel guarantees for that splitting: every arc has
the spline's degree and rationality, and there is one arc per knot span. -/
structure BSpline where
  degree : Nat
  rational : Bool
  knots : List Rat
  arcs : List Bez
  arcs_shape : ∀ b ∈ arcs, b.degree = degree ∧ b.rational = rational
  arcs_count : arcs.length = knots.length - 1

/-- Oracle for `GeomConvert_ApproxCurve(bspline, tolerance, GeomAbs_C0,
MaxSegments, MaxDegree)`: `none` models `not (IsDone() and HasResult())`. -/
abbrev ApproxOracle := BSpline → Rat → Nat → Nat → Option BSpline

/-- `bspline_to_beziers`: splines of degree above 3 — the hard-coded 3,
not `max_degree` — or rational ones are first replaced by the bounded
approximation (raising when it fails); the (possibly replaced) spline is
then split exactly into its Bezier arcs. -/
def bspline_to_beziers (approx : ApproxOracle) (bspline : BSpline)
    (tolerance : Rat) (max_degree : Nat) (max_segments : Nat) :
    Except String (List Bez) :=
  if 3 < bspline.degree ∨ bspline.rational = true then
    match approx bspline tolerance max_segments max_degree with
    | some replacement => Except.ok replacement.arcs
    | none => Except.error "could not approximate b-spline"
  else
    Except.ok bspline.arcs

/-- A curve as `curve_to_beziers` observes it through `curve_adaptor`:
type tag, parameter range, evaluation, and the kernel data each dispatch
branch consumes: `Bezier()`, `BSpline()`, and the two exact
`GeomConvert.CurveToBSplineCurve_s` conversions (of `curve_to_bspline`
applied to the Bezier, and of the raw underlying curve). -/
structure CurveAdaptor where
  ctype : CurveType
  firstParameter : Rat
  lastParameter : Rat
  value : Rat → Pnt
  bezier : Bez
  bspline : BSpline
  bezierAsBSpline : BSpline
  curveAsBSpline : BSpline

/-- `curve_to_beziers`, with the generator read as the full list it
yields.  The line branch mirrors the source exactly: both `start` and
`end` are `adaptor.Value(adaptor.FirstParameter())` — the source's line
402 reads `FirstParameter` although the variable is named `end`. -/
def curve_to_beziers (approx : ApproxOracle) (a : CurveAdaptor)
    (tolerance : Rat) (max_degree : Nat) (max_segments : Nat) :
    Except String (List Bez) :=
  if a.ctype = CurveType.line then
    let start := a.value a.firstParameter
    let stop := a.value a.firstParameter
    (bezier_curve [start, stop]).map (fun b => [b])
  else if a.ctype = CurveType.bezierCurve then
    if max_degree < a.bezier.degree ∨ a.bezier.rational = true then
      bspline_to_beziers approx a.bezierAsBSpline tolerance max_degree max_segments
    else
      Except.ok [a.bezier]
  else if a.ctype = CurveType.bsplineCurve then
    bspline_to_beziers approx a.bspline tolerance max_degree max_segments
  else
    bspline_to_beziers approx a.curveAsBSpline tolerance max_degree max_segments

/-- An approximation oracle that always fails; the exact-splitting paths
never consult it. -/
def approxNone : ApproxOracle := fun _ _ _ _ => none

/-- A trivial non-rational degree-1 spline used to fill the adaptor
fields the exercised branch never reads. -/
def trivialBSpline : BSpline where
  degree := 1
  rational := false
  knots := [0, 1]
  arcs := [⟨[⟨0, 0, 0⟩, ⟨1, 0, 0⟩], false⟩]
  arcs_shape := by decide
  arcs_count := by decide

/-- The adaptor of the straight segment from `(0,0,0)` to `(10,0,0)`:
type line, parameter range `[0, 10]`, evaluation `t ↦ (t, 0, 0)`. -/
def lineAdaptor : CurveAdaptor where
  ctype := CurveType.line
  firstParameter := 0
  lastParameter := 10
  value := fun t => ⟨t, 0, 0⟩
  bezier := ⟨[⟨0, 0, 0⟩, ⟨1, 0, 0⟩], false⟩
  bspline := trivialBSpline
  bezierAsBSpline := trivialBSpline
  curveAsBSpline := trivialBSpline

/-- C2 (code bug): on a line, the source evaluates BOTH control points of
the single degree-1 segment at `FirstParameter` (line 402 assigns
`end = adaptor.Value(adaptor.FirstParameter())`), so the yielded segment
degenerates to the start point repeated instead of spanning the first
and last parameter evaluations: the segment from `(0,0,0)` to `(10,0,0)`
yields poles `[(0,0,0), (0,0,0)]`, and the second pole differs from
`Value(LastParameter()) = (10,0,0)`. -/
theorem c2_line_uses_first_parameter_twice :
    curve_to_beziers approxNone lineAdaptor (1 / 100) 3 100 =
      Except.ok [⟨[⟨0, 0, 0⟩, ⟨0, 0, 0⟩], false⟩] ∧
    lineAdaptor.value lineAdaptor.lastParameter = ⟨10, 0, 0⟩ ∧
    (⟨10, 0, 0⟩ : Pnt) ≠ ⟨0, 0, 0⟩ :=
  ⟨rfl, rfl, by decide⟩

/-- A concrete non-rational cubic B-spline over a single knot span, with
the single Bezier arc its exact splitting produces (same degree 3, still
non-rational). -/
def cubicBSpline : BSpline where
  degree := 3
  rational := false
  knots := [0, 1]
  arcs := [⟨[⟨0, 0, 0⟩, ⟨1, 1, 0⟩, ⟨2, 1, 0⟩, ⟨3, 0, 0⟩], false⟩]
  arcs_shape := by decide
  arcs_count := by decide

/-- An adaptor whose curve is `cubicBSpline` itself. -/
def cubicAdaptor : CurveAdaptor where
  ctype := CurveType.bsplineCurve
  firstParameter := 0
  lastParameter := 1
  value := fun _ => ⟨0, 0, 0⟩
  bezier := ⟨[⟨0, 0, 0⟩, ⟨1, 0, 0⟩], false⟩
  bspline := cubicBSpline
  bezierAsBSpline := cubicBSpline
  curveAsBSpline := cubicBSpline

/-- C3 counterexample: with `max_degree = 2`, the non-rational cubic
B-spline passes the hard-coded `Degree() > 3` guard and is split exactly,
so both `bspline_to_beziers` and `curve_to_beziers` yield a degree-3
segment — the claimed bound `degree ≤ max_degree` fails for
`max_degree < 3`. -/
theorem c3_counterexample :
    bspline_to_beziers approxNone cubicBSpline 1 2 100 =
      Except.ok [⟨[⟨0, 0, 0⟩, ⟨1, 1, 0⟩, ⟨2, 1, 0⟩, ⟨3, 0, 0⟩], false⟩] ∧
    curve_to_beziers approxNone cubicAdaptor 1 2 100 =
      Except.ok [⟨[⟨0, 0, 0⟩, ⟨1, 1, 0⟩, ⟨2, 1, 0⟩, ⟨3, 0, 0⟩], false⟩] ∧
    (⟨[⟨0, 0, 0⟩, ⟨1, 1, 0⟩, ⟨2, 1, 0⟩, ⟨3, 0, 0⟩], false⟩ : Bez).degree = 3 ∧
    ¬((⟨[⟨0, 0, 0⟩, ⟨1, 1, 0⟩, ⟨2, 1, 0⟩, ⟨3, 0, 0⟩], false⟩ : Bez).degree ≤ 2) :=
  ⟨rfl, rfl, rfl, by decide⟩

/-- C3 amended: under the kernel guarantee that a successful
`GeomConvert_ApproxCurve` result observes its requested bounds (degree at
most the passed MaxDegree, non-rational), every segment yielded by
`bspline_to_beziers` — and hence by every branch of `curve_to_beziers` —
is non-rational and has degree ≤ max(max_degree, 3).  The claimed bound
`degree ≤ max_degree` therefore holds whenever `max_degree ≥ 3` (in
particular at the default 3), but not for `max_degree < 3`. -/
theorem c3_degree_bound_amended (approx : ApproxOracle)
    (happrox : ∀ b t s d b2, approx b t s d = some b2 →
      b2.degree ≤ d ∧ b2.rational = false) :
    (∀ (b : BSpline) (t : Rat) (d s : Nat) (out : List Bez),
      bspline_to_beziers approx b t d s = Except.ok out →
      ∀ bez ∈ out, bez.degree ≤ max d 3 ∧ bez.rational = false) ∧
    (∀ (a : CurveAdaptor) (t : Rat) (d s : Nat) (out : List Bez),
      curve_to_beziers approx a t d s = Except.ok out →
      ∀ bez ∈ out, bez.degree ≤ max d 3 ∧ bez.rational = false) := by
  have hbs : ∀ (b : BSpline) (t : Rat) (d s : Nat) (out : List Bez),
      bspline_to_beziers approx b t d s = Except.ok out →
      ∀ bez ∈ out, bez.degree ≤ max d 3 ∧ bez.rational = false := by
    intro b t d s out hrun bez hmem
    unfold bspline_to_beziers at hrun
    by_cases hbig : 3 < b.degree ∨ b.rational = true
    · rw [if_pos hbig] at hrun
      match happ : approx b t s d with
      | some b2 =>
        rw [happ] at hrun
        simp only [Except.ok.injEq] at hrun
        obtain ⟨hd, hr⟩ := b2.arcs_shape bez (hrun ▸ hmem)
        obtain ⟨hd2, hr2⟩ := happrox b t s d b2 happ
        exact ⟨by rw [hd]; exact le_trans hd2 (le_max_left _ _), by rw [hr, hr2]⟩
      | none =>
        rw [happ] at hrun
        exact Except.noConfusion hrun
    · rw [if_neg hbig] at hrun
      simp only [Except.ok.injEq] at hrun
      push_neg at hbig
      obtain ⟨hd3, hrat⟩ := hbig
      obtain ⟨hd, hr⟩ := b.arcs_shape bez (hrun ▸ hmem)
      refine ⟨by rw [hd]; omega, ?_⟩
      rw [hr]
      exact Bool.not_eq_true _ |>.mp hrat
  refine ⟨hbs, ?_⟩
  intro a t d s out hrun bez hmem
  unfold curve_to_beziers at hrun
  by_cases h1 : a.ctype = CurveType.line
  · rw [if_pos h1] at hrun
    have hcond : 2 ≤ ([a.value a.firstParameter, a.value a.firstParameter] : List Pnt).length ∧
        ([a.value a.firstParameter, a.value a.firstParameter] : List Pnt).length ≤
          BEZIER_MAX_DEGREE := by
      constructor <;> simp [BEZIER_MAX_DEGREE]
    simp only [bezier_curve, if_pos hcond, Except.map, Except.ok.injEq] at hrun
    rw [← hrun] at hmem
    simp only [List.mem_singleton] at hmem
    subst hmem
    refine ⟨?_, rfl⟩
    simp [Bez.degree]
  · rw [if_neg h1] at hrun
    by_cases h2 : a.ctype = CurveType.bezierCurve
    · rw [if_pos h2] at hrun
      by_cases h3 : d < a.bezier.degree ∨ a.bezier.rational = true
      · rw [if_pos h3] at hrun
        exact hbs _ _ _ _ _ hrun bez hmem
      · rw [if_neg h3] at hrun
        push_neg at h3
        obtain ⟨hdle, hrat⟩ := h3
        simp only [Except.ok.injEq] at hrun
        rw [← hrun] at hmem
        simp only [List.mem_singleton] at hmem
        subst hmem
        exact ⟨le_trans hdle (le_max_left _ _), Bool.not_eq_true _ |>.mp hrat⟩
    · rw [if_neg h2] at hrun
      by_cases h4 : a.ctype = CurveType.bsplineCurve
      · rw [if_pos h4] at hrun
        exact hbs _ _ _ _ _ hrun bez hmem
      · rw [if_neg h4] at hrun
        exact hbs _ _ _ _ _ hrun bez hmem

/-- C3 amended witness: the cubic spline at `max_degree = 2` yields its
degree-3 non-rational arc, within the amended bound `max 2 3 = 3`. -/
theorem c3_witness :
    (⟨[⟨0, 0, 0⟩, ⟨1, 1, 0⟩, ⟨2, 1, 0⟩, ⟨3, 0, 0⟩], false⟩ : Bez).degree ≤ max 2 3 ∧
    (⟨[⟨0, 0, 0⟩, ⟨1, 1, 0⟩, ⟨2, 1, 0⟩, ⟨3, 0, 0⟩], false⟩ : Bez).rational = false :=
  (c3_degree_bound_amended approxNone
      (fun _ _ _ _ _ h => Option.noConfusion h)).1
    cubicBSpline 1 2 100 _ rfl _ (List.mem_singleton.mpr rfl)

/-- C9: `bspline_to_beziers` raises exactly when the spline needs
approximating (degree above 3 or rational) and the bounded search
produces nothing; a non-rational spline of degree ≤ 3 never raises — for
every tolerance it is split exactly into its arcs, whose count is fixed
by the knot structure (one arc per knot span), independent of the
tolerance argument. -/
theorem c9_bspline_error_iff (approx : ApproxOracle) (b : BSpline)
    (t : Rat) (d s : Nat) :
    ((∃ e, bspline_to_beziers approx b t d s = Except.error e) ↔
      ((3 < b.degree ∨ b.rational = true) ∧ approx b t s d = none)) ∧
    (b.degree ≤ 3 → b.rational = false →
      (∀ t2 : Rat, bspline_to_beziers approx b t2 d s = Except.ok b.arcs) ∧
      b.arcs.length = b.knots.length - 1) := by
  constructor
  · constructor
    · rintro ⟨e, he⟩
      unfold bspline_to_beziers at he
      by_cases hbig : 3 < b.degree ∨ b.rational = true
      · rw [if_pos hbig] at he
        refine ⟨hbig, ?_⟩
        match happ : approx b t s d with
        | some b2 =>
          rw [happ] at he
          exact Except.noConfusion he
        | none => rfl
      · rw [if_neg hbig] at he
        exact Except.noConfusion he
    · rintro ⟨hbig, happ⟩
      refine ⟨"could not approximate b-spline", ?_⟩
      unfold bspline_to_beziers
      rw [if_pos hbig, happ]
  · intro hd hr
    have hcond : ¬(3 < b.degree ∨ b.rational = true) := by
      rintro (h | h)
      · omega
      · rw [hr] at h
        exact Bool.noConfusion h
    exact ⟨fun t2 => by unfold bspline_to_beziers; rw [if_neg hcond], b.arcs_count⟩

/-- C9 witness: the concrete cubic non-rational spline is split exactly,
with one arc for its single knot span, at an arbitrary tolerance. -/
theorem c9_witness :
    bspline_to_beziers approxNone cubicBSpline 7 3 100 =
      Except.ok cubicBSpline.arcs ∧
    cubicBSpline.arcs.length = cubicBSpline.knots.length - 1 := by
  have h := (c9_bspline_error_iff approxNone cubicBSpline 7 3 100).2
    (by decide) rfl
  exact ⟨h.1 7, h.2⟩
